import Mathlib

/-!
Verification of the fitness-backend's background task queue (`tasks.py`),
the user-note persistence layer (`database.py`), and the note-extraction
agent (`agent.py`), against the repository's natural-language specification.

The embedding models the asyncio single-threaded cooperative scheduler
explicitly: `queue_task` runs atomically (an `await` of `asyncio.Queue.put`
on an unbounded queue completes without yielding to the event loop), a
coroutine created with `asyncio.create_task` becomes *pending* and only
begins running when the event loop later schedules it, and a worker-loop
iteration (dequeue one task, execute it, catch and log any exception) is
one scheduler step.
-/

namespace FitnessBackend

namespace Tasks

/-- A queued background task: an identifying marker plus whether executing
its callable raises an exception. -/
structure QTask where
  id : Nat
  raises : Bool
deriving DecidableEq, Repr

/-- The process-wide state of `tasks.py`: the shared `_task_queue`, the
`_is_worker_running` flag, worker coroutines created by
`asyncio.create_task` but not yet scheduled (`pendingWorkers`), worker
loops that have begun running (`activeWorkers`), a counter of loop starts,
the execution log, the error log, and a ghost log of all submissions. -/
structure SchedState where
  queue : List QTask
  is_worker_running : Bool
  pendingWorkers : Nat
  activeWorkers : Nat
  loopStarts : Nat
  executed : List QTask
  errorsLogged : List QTask
  submitted : List QTask
deriving DecidableEq, Repr

/-- The state at process start: empty queue, flag false, no workers. -/
def initState : SchedState :=
  { queue := [], is_worker_running := false, pendingWorkers := 0,
    activeWorkers := 0, loopStarts := 0, executed := [],
    errorsLogged := [], submitted := [] }

/-- `start_background_worker` (tasks.py lines 40-44): checks
`_is_worker_running`; when false it calls
`asyncio.create_task(_background_worker())`, which creates one more
pending worker coroutine.  The flag itself is NOT set here: the source
sets it only inside `_background_worker`, once that coroutine actually
starts running. -/
def start_background_worker (s : SchedState) : SchedState :=
  if s.is_worker_running then s
  else { s with pendingWorkers := s.pendingWorkers + 1 }

/-- `queue_task` (tasks.py lines 46-52): `await _task_queue.put(...)`
appends the task at the tail (no suspension on an unbounded queue), then
calls `start_background_worker`.  Total: no validation, no rejection, no
error path. -/
def queue_task (t : QTask) (s : SchedState) : SchedState :=
  start_background_worker
    { s with queue := s.queue ++ [t], submitted := s.submitted ++ [t] }

/-- The event loop schedules one pending worker coroutine: the first lines
of `_background_worker` (tasks.py lines 13-16) run, setting
`_is_worker_running = True`, and the loop of lines 19-33 becomes active. -/
def beginWorkerLoop (s : SchedState) : SchedState :=
  if s.pendingWorkers = 0 then s
  else { s with pendingWorkers := s.pendingWorkers - 1,
                activeWorkers := s.activeWorkers + 1,
                loopStarts := s.loopStarts + 1,
                is_worker_running := true }

/-- One iteration of the `while True` body of `_background_worker`
(tasks.py lines 19-33) by some active worker: dequeue the head task,
execute it, and if execution raises, catch the exception and log it
(the `except Exception` at lines 27-30); the loop then continues.  When
the queue is empty the worker suspends in `await _task_queue.get()` and
the state is unchanged. -/
def workerIteration (s : SchedState) : SchedState :=
  if s.activeWorkers = 0 then s
  else
    match s.queue with
    | [] => s
    | t :: rest =>
      { s with queue := rest,
               executed := s.executed ++ [t],
               errorsLogged :=
                 if t.raises then s.errorsLogged ++ [t] else s.errorsLogged }

/-- A scheduler event: a handler calls `queue_task`, the event loop starts
one created worker coroutine, or an active worker performs one loop
iteration. -/
inductive Event where
  | submit (t : QTask)
  | startLoop
  | iterate
deriving DecidableEq, Repr

/-- One scheduler step. -/
def step (e : Event) (s : SchedState) : SchedState :=
  match e with
  | .submit t => queue_task t s
  | .startLoop => beginWorkerLoop s
  | .iterate => workerIteration s

/-- Run a sequence of scheduler events from a state. -/
def run (evs : List Event) (s : SchedState) : SchedState :=
  evs.foldl (fun s e => step e s) s

/-- Number of tasks with marker `i` in a list. -/
def countId (l : List QTask) (i : Nat) : Nat :=
  (l.filter (fun t => t.id = i)).length

/-- The drain scenario of the spec's testable properties: submit a batch
of tasks, let the event loop start one created worker coroutine, then run
one loop iteration per submitted task. -/
def drainRun (ts : List QTask) : SchedState :=
  run (ts.map Event.submit ++
        Event.startLoop :: List.replicate ts.length Event.iterate)
    initState

end Tasks

namespace Db

/-- One row of the `user_notes` table (database.py lines 235-249):
primary-key id (a UUID, modelled as `Nat`), owner, category, key, value,
confidence (a float, modelled exactly as `Rat`), source, and a
timestamp whose column default is the current UTC time. -/
structure NoteRow where
  id : Nat
  user_id : String
  category : String
  key : String
  value : String
  confidence : Rat
  source : String
  timestamp : Nat
deriving DecidableEq, Repr

/-- The steps of `add_or_update_user_note` at which the database layer can
raise: the SELECT, the UPDATE / INSERT write, or the COMMIT. -/
inductive DbStep where
  | lookup
  | write
  | commit
deriving DecidableEq, Repr

/-- The `(user_id, key)` match used by the SELECT of
`add_or_update_user_note` (database.py lines 845-849). -/
def noteMatches (user_id key : String) (r : NoteRow) : Bool :=
  r.user_id = user_id && r.key = key

/-- `add_or_update_user_note` (database.py lines 833-883).  `db` is the
committed content of `user_notes`, in row order; `failAt` is an oracle
saying which step, if any, raises; `freshId` models `uuid.uuid4()` and
`now` models `datetime.now(timezone.utc)` (also the column default
applied to an inserted row).  The body looks up the first row matching
`(user_id, key)`; if found it updates that row's value, confidence,
source, category and timestamp (keyed by the row id), otherwise it
appends a new row; then it commits and returns `True`.  Any exception is
caught and the function returns `False`; nothing was committed, so the
persistent table is unchanged.  Returns the Python return value and the
committed table. -/
def add_or_update_user_note (db : List NoteRow) (failAt : Option DbStep)
    (freshId now : Nat) (user_id category key value : String)
    (confidence : Rat) (source : String) : Bool × List NoteRow :=
  if failAt = some DbStep.lookup then (false, db)
  else
    let found := db.find? (noteMatches user_id key)
    if failAt = some DbStep.write then (false, db)
    else
      let staged :=
        match found with
        | some note =>
          db.map (fun r =>
            if r.id = note.id then
              { r with value := value, confidence := confidence,
                       source := source, category := category,
                       timestamp := now }
            else r)
        | none =>
          db ++ [{ id := freshId, user_id := user_id, category := category,
                   key := key, value := value, confidence := confidence,
                   source := source, timestamp := now }]
      if failAt = some DbStep.commit then (false, db)
      else (true, staged)

end Db

namespace Agent

/-- A conversation message as stored by the persistence layer: a Python
dict that may or may not carry `role` and `content` keys (`msg.get` with
a default is used on both). -/
structure PyMsg where
  role : Option String
  content : Option String
deriving DecidableEq, Repr

/-- One formatted line of the conversation context (agent.py line 23):
`f"{msg.get('role', 'unknown').upper()}: {msg.get('content', '')}"`. -/
def msgLine (m : PyMsg) : String :=
  (m.role.getD "unknown").toUpper ++ ": " ++ (m.content.getD "")

/-- `recent_messages` (agent.py line 19):
`messages[-10:] if len(messages) > 10 else messages`. -/
def recent_messages (messages : List PyMsg) : List PyMsg :=
  if messages.length > 10 then messages.drop (messages.length - 10)
  else messages

/-- The conversation text sent to the extraction model (agent.py lines
22-28): the formatted recent messages joined by newlines, followed by the
current interaction. -/
def conversation_text (messages : List PyMsg)
    (user_prompt agent_response : String) : String :=
  String.intercalate "\n" ((recent_messages messages).map msgLine)
    ++ "\nUSER: " ++ user_prompt ++ "\nASSISTANT: " ++ agent_response

/-- Does `s` start with `pat`?  (Lists of characters; mirrors Python's
`str.startswith`, used here only to express substring search.) -/
def startsWith : List Char → List Char → Bool
  | _, [] => true
  | [], _ :: _ => false
  | c :: s, p :: ps => c = p && startsWith s ps

/-- Python's containment test `pat in s` on strings: `pat` occurs as a
contiguous substring of `s`. -/
def containsSub (pat : List Char) : List Char → Bool
  | [] => startsWith [] pat
  | c :: rest => startsWith (c :: rest) pat || containsSub pat rest

/-- The first step of Python's `s.split(sep)` for nonempty `sep`: locate
the leftmost occurrence of `sep` and return the text before it and the
text after it; `none` when `sep` does not occur (an empty `sep` never
matches here; Python raises on it, and the source only splits on
"```json" and "```"). -/
def splitFirst (sep : List Char) : List Char → Option (List Char × List Char)
  | [] => none
  | c :: rest =>
    if !sep.isEmpty && startsWith (c :: rest) sep then
      some ([], (c :: rest).drop sep.length)
    else (splitFirst sep rest).map (fun p => (c :: p.1, p.2))

/-- Python's `s.split(sep)[0]`: the text before the first occurrence of
`sep`, or all of `s` when `sep` does not occur. -/
def pySplitIdx0 (sep s : List Char) : List Char :=
  match splitFirst sep s with
  | some p => p.1
  | none => s

/-- Python's `s.split(sep)[1]`: the text strictly between the first
occurrence of `sep` and the following one (or the end).  Defined only
under the `sep in s` guard the source checks first; Python would raise
`IndexError` otherwise, and this model returns `[]` in that unreachable
branch. -/
def pySplitIdx1 (sep s : List Char) : List Char :=
  match splitFirst sep s with
  | some p => pySplitIdx0 sep p.2
  | none => []

/-- The fenced-extraction step of `extract_user_notes` (agent.py lines
85-89): take the text between the markdown fences when present, else the
raw completion text. -/
def extract_json (result_text : List Char) : List Char :=
  if containsSub ("```json".toList) result_text then
    pySplitIdx0 ("```".toList)
      (pySplitIdx1 ("```json".toList) result_text)
  else if containsSub ("```".toList) result_text then
    pySplitIdx0 ("```".toList)
      (pySplitIdx1 ("```".toList) result_text)
  else result_text

/-- A parsed JSON value.  Strings keep their source characters (escape
sequences validated but left undecoded) and numbers keep their lexeme;
this suffices to compare parses for equality.  The model implements the
JSON grammar accepted by `json.loads` (`json.loads` additionally accepts
the non-standard `NaN`/`Infinity` literals, which are not modelled). -/
inductive Json where
  | null
  | bool (b : Bool)
  | num (lexeme : List Char)
  | str (chars : List Char)
  | arr (elems : List Json)
  | obj (fields : List (List Char × Json))
deriving Repr

/-- The whitespace characters `json.loads` skips between tokens. -/
def isJsonWs (c : Char) : Bool :=
  c = ' ' || c = '\t' || c = '\n' || c = '\r'

/-- Skip leading JSON whitespace. -/
def skipWs (s : List Char) : List Char :=
  s.dropWhile isJsonWs

/-- A hexadecimal digit, as accepted in a `\uXXXX` escape. -/
def isHexDigitChar (c : Char) : Bool :=
  c.isDigit || ('a' ≤ c && c ≤ 'f') || ('A' ≤ c && c ≤ 'F')

/-- Parse the body of a JSON string after the opening quote, up to and
consuming the closing quote; validates escape sequences and rejects raw
control characters, keeping the characters as written. -/
def parseStringBody : List Char → Option (List Char × List Char)
  | [] => none
  | c :: rest =>
    if c = '"' then some ([], rest)
    else if c = '\\' then
      match rest with
      | [] => none
      | e :: rest' =>
        if e = 'u' then
          match rest' with
          | h1 :: h2 :: h3 :: h4 :: rest'' =>
            if isHexDigitChar h1 && isHexDigitChar h2 && isHexDigitChar h3 &&
                isHexDigitChar h4 then
              (parseStringBody rest'').map
                (fun p => (c :: e :: h1 :: h2 :: h3 :: h4 :: p.1, p.2))
            else none
          | _ => none
        else if e = '"' || e = '\\' || e = '/' || e = 'b' || e = 'f' ||
            e = 'n' || e = 'r' || e = 't' then
          (parseStringBody rest').map
            (fun p => (c :: e :: p.1, p.2))
        else none
    else if c.val < 32 then none
    else (parseStringBody rest).map (fun p => (c :: p.1, p.2))

/-- A suffix that cannot extend a token that ended at the very end of the
text it is appended to: its first character extends no number lexeme.
(`'\n'`, the only character these proofs append, qualifies.) -/
def safeSuffix (t : List Char) : Bool :=
  match t with
  | [] => true
  | c :: _ => !(c.isDigit || c = '.' || c = 'e' || c = 'E')

/-- Take the leading run of decimal digits. -/
def takeDigits : List Char → List Char × List Char
  | [] => ([], [])
  | c :: rest =>
    if c.isDigit then
      let p := takeDigits rest
      (c :: p.1, p.2)
    else ([], c :: rest)

/-- A mandatory digit run prefixed by already-consumed characters: the
shared shape of the fractional part, the exponent digits, and the
integer part of a JSON number. -/
def withDigits (pre u : List Char) : Option (List Char × List Char) :=
  match takeDigits u with
  | ([], _) => none
  | (ds, r) => some (pre ++ ds, r)

/-- The optional fractional part of a JSON number: `'.'` followed by at
least one digit. -/
def parseFrac (s : List Char) : Option (List Char × List Char) :=
  match s with
  | '.' :: rest => withDigits ['.'] rest
  | s' => some ([], s')

/-- The optional exponent part of a JSON number: `e`/`E`, an optional
sign, and at least one digit. -/
def parseExp (s : List Char) : Option (List Char × List Char) :=
  match s with
  | c :: rest =>
    if c = 'e' || c = 'E' then
      match rest with
      | sc :: rest' =>
        if sc = '+' || sc = '-' then withDigits [c, sc] rest'
        else withDigits [c] rest
      | [] => none
    else some ([], s)
  | [] => some ([], [])

/-- The body of a JSON number after the optional minus sign: the integer
part (`0`, or a nonzero digit followed by digits), then the optional
fraction and exponent; returns the full lexeme and the remainder. -/
def parseNumTail (sign u : List Char) : Option (List Char × List Char) :=
  match takeDigits u with
  | ([], _) => none
  | (ds, s2) =>
    if 1 < ds.length ∧ ds.head? = some '0' then none
    else
      match parseFrac s2 with
      | none => none
      | some (fr, s3) =>
        match parseExp s3 with
        | none => none
        | some (ex, s4) => some (sign ++ ds ++ fr ++ ex, s4)

/-- Parse a JSON number lexeme: `-? (0 | [1-9][0-9]*) frac? exp?`. -/
def parseNumber (s : List Char) : Option (List Char × List Char) :=
  match s with
  | '-' :: rest => parseNumTail ['-'] rest
  | s' => parseNumTail [] s'

/-- Match an exact run of characters (the tails of the `true`, `false`
and `null` literals), returning the remainder. -/
def stripRun : List Char → List Char → Option (List Char)
  | [], rest => some rest
  | p :: ps, c :: rest => if c = p then stripRun ps rest else none
  | _ :: _, [] => none

mutual

/-- Parse one JSON value at the head of the input (no leading
whitespace), returning it with the unconsumed remainder.  Fuel bounds the
nesting depth; `json_loads` supplies `length + 1`, which is ample since
every nested value sits behind at least one consumed character. -/
def parseValue : Nat → List Char → Option (Json × List Char)
  | 0, _ => none
  | _ + 1, [] => none
  | fuel + 1, c :: rest =>
    if c = '"' then
      match parseStringBody rest with
      | some (cs, r) => some (.str cs, r)
      | none => none
    else if c = '{' then
      match skipWs rest with
      | '}' :: r => some (.obj [], r)
      | r => parseMembers fuel r
    else if c = '[' then
      match skipWs rest with
      | ']' :: r => some (.arr [], r)
      | r => parseElements fuel r
    else if c = 't' then
      match stripRun ['r', 'u', 'e'] rest with
      | some r => some (.bool true, r)
      | none => none
    else if c = 'f' then
      match stripRun ['a', 'l', 's', 'e'] rest with
      | some r => some (.bool false, r)
      | none => none
    else if c = 'n' then
      match stripRun ['u', 'l', 'l'] rest with
      | some r => some (.null, r)
      | none => none
    else if c = '-' || c.isDigit then
      match parseNumber (c :: rest) with
      | some (lex, r) => some (.num lex, r)
      | none => none
    else none

/-- Parse the members of a JSON object, positioned at the first key's
opening quote, through the closing `}`. -/
def parseMembers : Nat → List Char → Option (Json × List Char)
  | 0, _ => none
  | fuel + 1, s =>
    match s with
    | '"' :: rest =>
      match parseStringBody rest with
      | some (key, r1) =>
        match skipWs r1 with
        | ':' :: r2 =>
          match parseValue fuel (skipWs r2) with
          | some (v, r3) =>
            match skipWs r3 with
            | ',' :: r4 =>
              match parseMembers fuel (skipWs r4) with
              | some (.obj flds, r5) => some (.obj ((key, v) :: flds), r5)
              | _ => none
            | '}' :: r4 => some (.obj [(key, v)], r4)
            | _ => none
          | none => none
        | _ => none
      | none => none
    | _ => none

/-- Parse the elements of a JSON array, positioned at the first element,
through the closing `]`. -/
def parseElements : Nat → List Char → Option (Json × List Char)
  | 0, _ => none
  | fuel + 1, s =>
    match parseValue fuel s with
    | some (v, r1) =>
      match skipWs r1 with
      | ',' :: r2 =>
        match parseElements fuel (skipWs r2) with
        | some (.arr xs, r3) => some (.arr (v :: xs), r3)
        | _ => none
      | ']' :: r2 => some (.arr [v], r2)
      | _ => none
    | none => none

end

/-- `json.loads`: parse a complete JSON document, tolerating surrounding
whitespace and nothing else. -/
def json_loads (s : List Char) : Option Json :=
  match parseValue (s.length + 1) (skipWs s) with
  | some (v, r) => if skipWs r = [] then some v else none
  | none => none

/-- Lookup in a Python dict built by `json.loads` from an object literal:
a later duplicate key overrides an earlier one. -/
def pyDictGet (flds : List (List Char × Json)) (k : List Char) :
    Option Json :=
  (flds.reverse.find? (fun p => p.1 == k)).map (·.2)

/-- The characters of the `"notes"` key. -/
def notes_key : List Char := "notes".toList

/-- What `if "notes" in result and isinstance(result["notes"], list):`
does for each shape of the parsed JSON document `result`: a list of notes
to process, a falsy check (print-and-return-`[]`), or a `TypeError`
(membership test on a non-container, or indexing a list/str with a
string) that the outer handler catches. -/
inductive NotesOutcome where
  | notesList (xs : List Json)
  | noNotes
  | typeErr
deriving Repr

/-- Evaluate the `"notes" in result and isinstance(...)` guard. -/
def notesCheck (v : Json) : NotesOutcome :=
  match v with
  | .obj flds =>
    match pyDictGet flds notes_key with
    | some (.arr xs) => .notesList xs
    | some _ => .noNotes
    | none => .noNotes
  | .arr xs =>
    if xs.any (fun x =>
        match x with
        | .str s => s == notes_key
        | _ => false) then .typeErr
    else .noNotes
  | .str s => if containsSub notes_key s then .typeErr else .noNotes
  | _ => .typeErr

/-- Is this JSON value an object (a Python dict, supporting `.get`)? -/
def isJsonObj : Json → Bool
  | .obj _ => true
  | _ => false

/-- `extract_user_notes` (agent.py lines 12-119), with its external
effects as oracles: `conv` is the result of `get_user_conversation`,
`llm` maps the conversation text to the chat-completion outcome (an API
error, or a completion whose `content` may be `None`), and `store` gives
the boolean result of each `add_or_update_user_note` call — a result the
source discards, so storage failures (which surface as `False`, see the
`Db` model) cannot affect this function.  The returned value models what
the caller observes: `Except.error` would be a propagated exception.  The
outer `try/except Exception` turns every failure of the body into
`return []`; the inner `except json.JSONDecodeError` turns an unparsable
completion into `return []` directly. -/
def extract_user_notes (conv : Except String (List PyMsg))
    (user_prompt agent_response : String)
    (llm : String → Except String (Option String))
    (store : Json → Bool) : Except String (List Json) :=
  let body : Except String (List Json) :=
    match conv with
    | .error e => .error e
    | .ok messages =>
      match llm (conversation_text messages user_prompt agent_response) with
      | .error e => .error e
      | .ok none => .error "TypeError: argument of type NoneType is not iterable"
      | .ok (some result_text) =>
        match json_loads (extract_json result_text.toList) with
        | none => .ok []
        | some result =>
          match notesCheck result with
          | .notesList xs =>
            if xs.all isJsonObj then
              let _ := xs.map (fun n => store n)
              .ok xs
            else .error "AttributeError: no attribute get"
          | .noNotes => .ok []
          | .typeErr => .error "TypeError: type is not iterable"
  match body with
  | .ok xs => .ok xs
  | .error _ => .ok []

end Agent

end FitnessBackend

namespace FitnessBackend

namespace Tasks

theorem run_append (a b : List Event) (s : SchedState) :
    run (a ++ b) s = run b (run a s) :=
  List.foldl_append _ _ _ _

theorem run_cons (e : Event) (evs : List Event) (s : SchedState) :
    run (e :: evs) s = run evs (step e s) := rfl

theorem run_nil (s : SchedState) : run [] s = s := rfl

/-- Submitting a batch of tasks back-to-back (no scheduler step in
between) appends them to the queue and the ghost log; each call also
creates one more pending worker coroutine whenever the
`_is_worker_running` flag is false, and the flag itself never changes. -/
theorem run_submits (ts : List QTask) (s : SchedState) :
    run (ts.map Event.submit) s =
      { s with queue := s.queue ++ ts,
               submitted := s.submitted ++ ts,
               pendingWorkers :=
                 s.pendingWorkers +
                   (if s.is_worker_running then 0 else ts.length) } := by
  induction ts generalizing s with
  | nil => simp [run]
  | cons t ts ih =>
    simp only [List.map_cons, run_cons, step, ih, queue_task,
      start_background_worker]
    by_cases h : s.is_worker_running
    · simp [h, List.append_assoc, List.length_cons]
    · simp [h, List.append_assoc, List.length_cons]
      omega

/-- Draining: while at least one worker loop is active, `k` loop
iterations move the first `k` queued tasks, in order, to the execution
log, appending the raising ones to the error log, and leave the worker
population, flag and submission log untouched. -/
theorem run_iterations (k : Nat) (s : SchedState)
    (ha : s.activeWorkers ≠ 0) :
    run (List.replicate k Event.iterate) s =
      { s with queue := s.queue.drop k,
               executed := s.executed ++ s.queue.take k,
               errorsLogged :=
                 s.errorsLogged ++ (s.queue.take k).filter (·.raises) } := by
  induction k generalizing s with
  | zero => simp [run]
  | succ k ih =>
    simp only [List.replicate_succ, run_cons, step, workerIteration,
      if_neg ha]
    cases hq : s.queue with
    | nil =>
      rw [ih s ha]
      simp [hq]
    | cons t rest =>
      rw [ih _ (by simpa using ha)]
      cases hr : t.raises <;>
        simp [hq, hr, List.filter_cons, List.append_assoc]

/-- The central trace invariant: along any scheduler run, the execution
log followed by the current queue is exactly the submission log. -/
theorem run_exec_queue_eq_submitted (evs : List Event) (s : SchedState)
    (h : s.executed ++ s.queue = s.submitted) :
    (run evs s).executed ++ (run evs s).queue = (run evs s).submitted := by
  induction evs generalizing s with
  | nil => simpa [run] using h
  | cons e evs ih =>
    rw [run_cons]
    refine ih _ ?_
    cases e with
    | submit t =>
      simp only [step, queue_task, start_background_worker]
      by_cases hw : (⟨s.queue ++ [t], s.is_worker_running, s.pendingWorkers,
          s.activeWorkers, s.loopStarts, s.executed, s.errorsLogged,
          s.submitted ++ [t]⟩ : SchedState).is_worker_running <;>
        simp_all [← List.append_assoc]
    | startLoop =>
      simp only [step, beginWorkerLoop]
      by_cases hp : s.pendingWorkers = 0 <;> simp_all
    | iterate =>
      simp only [step, workerIteration]
      by_cases ha : s.activeWorkers = 0
      · simpa [ha] using h
      · cases hq : s.queue with
        | nil => simpa [ha, hq] using h
        | cons t rest =>
          rw [hq] at h
          simp only [if_neg ha]
          show (s.executed ++ [t]) ++ rest = s.submitted
          rw [List.append_assoc, List.singleton_append]
          exact h

/-- Decomposition of the drain scenario: the executed log is the whole
batch, the queue is drained, the error log is the raising tasks in order,
and (for a nonempty batch) exactly one worker loop is active. -/
theorem drainRun_eq (ts : List QTask) :
    (drainRun ts).executed = ts ∧ (drainRun ts).queue = [] ∧
    (drainRun ts).errorsLogged = ts.filter (·.raises) ∧
    (ts ≠ [] → (drainRun ts).activeWorkers = 1) := by
  have h1 : run (ts.map Event.submit) initState =
      { initState with queue := ts, submitted := ts,
                       pendingWorkers := ts.length } := by
    rw [run_submits]
    simp [initState]
  cases ts with
  | nil => decide
  | cons t ts' =>
    have h2 :
        drainRun (t :: ts') =
          run (List.replicate (t :: ts').length Event.iterate)
            (beginWorkerLoop
              { initState with
                  queue := (t :: ts'), submitted := (t :: ts'),
                  pendingWorkers := (t :: ts').length }) := by
      show run _ initState = _
      rw [show (t :: ts').map Event.submit ++
            Event.startLoop :: List.replicate (t :: ts').length Event.iterate
          = ((t :: ts').map Event.submit ++ [Event.startLoop]) ++
            List.replicate (t :: ts').length Event.iterate by simp]
      rw [run_append, run_append, h1]
      rfl
    rw [h2]
    rw [run_iterations _ _ (by simp [beginWorkerLoop, initState])]
    simp [beginWorkerLoop, initState]

/-- **C1** (code_bug): the spec requires that N calls to `queue_task`
made in rapid succession from the STOPPED state start exactly one Worker
loop, with at most one loop ever active.  In the source,
`start_background_worker` checks `_is_worker_running` but the flag is set
only inside `_background_worker`, which does not run until the event loop
schedules it; so each of five back-to-back `queue_task` calls observes the
flag still false and creates a fresh worker coroutine.  Once the event
loop runs them all, five loops have started (the STOPPED→RUNNING
transition happened five times) and five loops are active at once. -/
theorem single_worker_claim_fails_on_code :
    (Tasks.run
        ((List.range 5).map (fun i => Tasks.Event.submit ⟨i, false⟩))
        Tasks.initState).pendingWorkers = 5 ∧
    (Tasks.run
        ((List.range 5).map (fun i => Tasks.Event.submit ⟨i, false⟩) ++
          List.replicate 5 Tasks.Event.startLoop)
        Tasks.initState).loopStarts = 5 ∧
    (Tasks.run
        ((List.range 5).map (fun i => Tasks.Event.submit ⟨i, false⟩) ++
          List.replicate 5 Tasks.Event.startLoop)
        Tasks.initState).activeWorkers = 5 := by
  refine ⟨by decide, by decide, by decide⟩

/-- **C2** (confirmed): strict FIFO.  Along every scheduler run the
execution log is a prefix of the submission log (no reordering ever), and
in the drain scenario the Worker executes the submitted batch exactly, in
submission order, leaving the queue empty. -/
theorem worker_executes_fifo :
    (∀ evs : List Tasks.Event,
        (Tasks.run evs Tasks.initState).executed <+:
          (Tasks.run evs Tasks.initState).submitted) ∧
    ∀ ts : List Tasks.QTask,
      (Tasks.drainRun ts).executed = ts ∧ (Tasks.drainRun ts).queue = [] := by
  constructor
  · intro evs
    exact ⟨(Tasks.run evs Tasks.initState).queue,
      Tasks.run_exec_queue_eq_submitted evs Tasks.initState rfl⟩
  · intro ts
    exact ⟨(Tasks.drainRun_eq ts).1, (Tasks.drainRun_eq ts).2.1⟩

/-- **C3** (confirmed): exception isolation.  If a raising task `bad` is
queued between `pre` and `post`, the Worker still executes the whole
sequence in order (so every subsequently queued task runs and `bad` runs
exactly as often as it was queued, never again), the exception is caught
and logged (the error log is exactly the raising tasks), the worker loop
is still active afterwards, and — `queue_task` being a total function in
this model, mirroring the source's lack of any raise path — no exception
reaches any caller of `queue_task`. -/
theorem worker_survives_task_exception (pre post : List Tasks.QTask)
    (bad : Tasks.QTask) (hbad : bad.raises = true) :
    (Tasks.drainRun (pre ++ bad :: post)).executed = pre ++ bad :: post ∧
    (Tasks.drainRun (pre ++ bad :: post)).errorsLogged =
      (pre ++ bad :: post).filter (·.raises) ∧
    bad ∈ (Tasks.drainRun (pre ++ bad :: post)).errorsLogged ∧
    (Tasks.drainRun (pre ++ bad :: post)).activeWorkers = 1 ∧
    (Tasks.drainRun (pre ++ bad :: post)).queue = [] := by
  obtain ⟨h1, h2, h3, h4⟩ := Tasks.drainRun_eq (pre ++ bad :: post)
  refine ⟨h1, h3, ?_, h4 (by simp), h2⟩
  rw [h3]
  exact List.mem_filter.mpr ⟨by simp, by simp [hbad]⟩

/-- Witness for the exception-isolation theorem at a concrete scenario:
a good task, then a raising one, then another good one. -/
theorem worker_survives_task_exception_witness :
    (⟨1, true⟩ : Tasks.QTask).raises = true ∧
    (Tasks.drainRun [⟨0, false⟩, ⟨1, true⟩, ⟨2, false⟩]).executed =
      [⟨0, false⟩, ⟨1, true⟩, ⟨2, false⟩] ∧
    (Tasks.drainRun [⟨0, false⟩, ⟨1, true⟩, ⟨2, false⟩]).errorsLogged =
      [⟨1, true⟩] :=
  ⟨rfl,
    (worker_survives_task_exception [⟨0, false⟩] [⟨2, false⟩] ⟨1, true⟩ rfl).1,
    by
      have h :=
        (worker_survives_task_exception [⟨0, false⟩] [⟨2, false⟩]
          ⟨1, true⟩ rfl).2.1
      simpa using h⟩

/-- **C4** (confirmed): at-most-once execution.  Along every scheduler
run — any interleaving of submissions, worker starts (however many
worker loops the code erroneously created) and loop iterations — a
marker submitted at most once is executed at most once: dequeuing with
`get` removes a task before it is executed, so no queue entry can be
consumed twice. -/
theorem task_executed_at_most_once (evs : List Tasks.Event) (i : Nat)
    (h : Tasks.countId (Tasks.run evs Tasks.initState).submitted i ≤ 1) :
    Tasks.countId (Tasks.run evs Tasks.initState).executed i ≤ 1 := by
  have inv := Tasks.run_exec_queue_eq_submitted evs Tasks.initState rfl
  have hcount :
      Tasks.countId (Tasks.run evs Tasks.initState).submitted i =
        Tasks.countId (Tasks.run evs Tasks.initState).executed i +
          Tasks.countId (Tasks.run evs Tasks.initState).queue i := by
    rw [← inv]
    simp [Tasks.countId]
  omega

/-- Witness for at-most-once execution: one submission, a worker start,
and two loop iterations (the second iteration finds an empty queue). -/
theorem task_executed_at_most_once_witness :
    Tasks.countId
        (Tasks.run [Tasks.Event.submit ⟨7, false⟩, Tasks.Event.startLoop,
            Tasks.Event.iterate, Tasks.Event.iterate]
          Tasks.initState).submitted 7 ≤ 1 ∧
    Tasks.countId
        (Tasks.run [Tasks.Event.submit ⟨7, false⟩, Tasks.Event.startLoop,
            Tasks.Event.iterate, Tasks.Event.iterate]
          Tasks.initState).executed 7 ≤ 1 :=
  ⟨by decide,
    task_executed_at_most_once
      [Tasks.Event.submit ⟨7, false⟩, Tasks.Event.startLoop,
        Tasks.Event.iterate, Tasks.Event.iterate] 7 (by decide)⟩

/-- **C7** (confirmed): enqueueing never fails.  `queue_task` is a total
function of the task and the current state — there is no validation, no
rejection and no error path in the source — and for every task and every
current queue depth it appends the task at the tail of the unbounded
queue without touching the execution state; `await _task_queue.put` on an
unbounded queue completes without suspending the caller. -/
theorem queue_task_never_fails (t : Tasks.QTask) (s : Tasks.SchedState) :
    (Tasks.queue_task t s).queue = s.queue ++ [t] ∧
    (Tasks.queue_task t s).submitted = s.submitted ++ [t] ∧
    (Tasks.queue_task t s).executed = s.executed ∧
    (Tasks.queue_task t s).errorsLogged = s.errorsLogged ∧
    (Tasks.queue_task t s).activeWorkers = s.activeWorkers ∧
    (Tasks.queue_task t s).is_worker_running = s.is_worker_running := by
  unfold Tasks.queue_task Tasks.start_background_worker
  by_cases h : s.is_worker_running <;> simp [h]

end Tasks

namespace Db

/-- The row update applied by the UPDATE branch of
`add_or_update_user_note` to the row with the found id. -/
def updRow (noteId : Nat) (category value : String) (confidence : Rat)
    (source : String) (now : Nat) (r : NoteRow) : NoteRow :=
  if r.id = noteId then
    { r with value := value, confidence := confidence, source := source,
             category := category, timestamp := now }
  else r

/-- After updating the first `(user_id, key)` match through its id, that
row is still the first match, now carrying the new field values (row ids
are unique: `id` is the table's primary key). -/
theorem find_after_update (db : List NoteRow) (u k : String)
    (note : NoteRow) (hids : (db.map (·.id)).Nodup)
    (hfind : db.find? (noteMatches u k) = some note)
    (c v : String) (conf : Rat) (src : String) (now : Nat) :
    (db.map (updRow note.id c v conf src now)).find? (noteMatches u k) =
      some { note with value := v, confidence := conf, source := src,
                       category := c, timestamp := now } := by
  induction db with
  | nil => simp at hfind
  | cons r db' ih =>
    by_cases hr : noteMatches u k r
    · rw [List.find?_cons_of_pos _ hr] at hfind
      have hrn : note = r := by
        have h' := hfind
        simp only [Option.some.injEq] at h'
        exact h'.symm
      subst hrn
      have hupd : updRow note.id c v conf src now note =
          { note with value := v, confidence := conf, source := src,
                      category := c, timestamp := now } := by
        simp [updRow]
      rw [List.map_cons, hupd]
      exact List.find?_cons_of_pos _ (by simpa [noteMatches] using hr)
    · rw [List.find?_cons_of_neg _ hr] at hfind
      have hne : r.id ≠ note.id := by
        have hmem : note ∈ db' := List.mem_of_find?_eq_some hfind
        have : note.id ∈ db'.map (·.id) := List.mem_map_of_mem _ hmem
        intro he
        rw [List.map_cons, List.nodup_cons] at hids
        exact hids.1 (he ▸ this)
      have hkeep : updRow note.id c v conf src now r = r := by
        simp [updRow, hne]
      have htail := ih (by
        rw [List.map_cons, List.nodup_cons] at hids
        exact hids.2) hfind
      rw [List.map_cons, hkeep, List.find?_cons_of_neg _ hr]
      exact htail

/-- When no `(user_id, key)` match exists, the freshly inserted row is
found at the tail of the table. -/
theorem find_after_insert (db : List NoteRow) (u k : String)
    (hfind : db.find? (noteMatches u k) = none) (new : NoteRow)
    (hnew : noteMatches u k new = true) :
    (db ++ [new]).find? (noteMatches u k) = some new := by
  induction db with
  | nil =>
    rw [List.nil_append]
    exact List.find?_cons_of_pos _ hnew
  | cons r db' ih =>
    have hr : noteMatches u k r = false := by
      cases h : noteMatches u k r
      · rfl
      · rw [List.find?_cons_of_pos _ h] at hfind
        exact absurd hfind (by simp)
    rw [List.find?_cons_of_neg _ (by simp [hr])] at hfind
    rw [List.cons_append, List.find?_cons_of_neg _ (by simp [hr])]
    exact ih hfind

/-- **C5** (counterexample): the claim says an existing `(user_id, key)`
note has only its value, confidence and source overwritten and its
timestamp bumped, "leaving every other field of the note unchanged" — but
the UPDATE at database.py lines 854-864 also sets `category=category`.
Calling with a different category on a table holding one matching note
stored under category "fitness_goal" leaves a note whose category is now
"health_metric". -/
theorem upsert_also_overwrites_category :
    (Db.add_or_update_user_note
        [{ id := 1, user_id := "u1", category := "fitness_goal",
           key := "weight", value := "lose", confidence := (1 : Rat) / 2,
           source := "inferred", timestamp := 0 }]
        none 2 5 "u1" "health_metric" "weight" "180 lbs" ((9 : Rat) / 10)
        "user_stated").2
      = [{ id := 1, user_id := "u1", category := "health_metric",
           key := "weight", value := "180 lbs", confidence := (9 : Rat) / 10,
           source := "user_stated", timestamp := 5 }] ∧
    ("health_metric" : String) ≠ "fitness_goal" := by
  exact ⟨rfl, by decide⟩

/-- **C5** (amended): when a note already exists for `(user_id, key)`,
`add_or_update_user_note` overwrites that note's value, confidence,
source AND category and bumps its timestamp, leaving its id, user_id and
key (and every other row of the table) unchanged; when no such note
exists it inserts a new row at the end of the table; either way, under
the table's primary-key uniqueness of row ids, a subsequent lookup of
`(user_id, key)` finds the just-written values: last-write-wins. -/
theorem upsert_last_write_wins (db : List Db.NoteRow) (freshId now : Nat)
    (u c k v : String) (conf : Rat) (src : String)
    (hids : (db.map (·.id)).Nodup) :
    (Db.add_or_update_user_note db none freshId now u c k v conf src).1
      = true ∧
    (∀ note, db.find? (Db.noteMatches u k) = some note →
      (Db.add_or_update_user_note db none freshId now u c k v conf src).2 =
        db.map (Db.updRow note.id c v conf src now)) ∧
    (db.find? (Db.noteMatches u k) = none →
      (Db.add_or_update_user_note db none freshId now u c k v conf src).2 =
        db ++ [{ id := freshId, user_id := u, category := c, key := k,
                 value := v, confidence := conf, source := src,
                 timestamp := now }]) ∧
    (∃ r, (Db.add_or_update_user_note db none freshId now u c k v conf
        src).2.find? (Db.noteMatches u k) = some r ∧
      r.value = v ∧ r.confidence = conf ∧ r.source = src ∧
      r.category = c ∧ r.timestamp = now) := by
  refine ⟨rfl, ?_, ?_, ?_⟩
  · intro note hfind
    simp only [Db.add_or_update_user_note, Db.updRow, hfind]
    rfl
  · intro hfind
    simp only [Db.add_or_update_user_note, hfind]
    rfl
  · cases hfind : db.find? (Db.noteMatches u k) with
    | some note =>
      refine ⟨{ note with
                  value := v, confidence := conf, source := src,
                  category := c, timestamp := now },
        ?_, rfl, rfl, rfl, rfl, rfl⟩
      have hres :
          (Db.add_or_update_user_note db none freshId now u c k v conf
            src).2 = db.map (Db.updRow note.id c v conf src now) := by
        simp only [Db.add_or_update_user_note, Db.updRow, hfind]
        rfl
      rw [hres]
      exact Db.find_after_update db u k note hids hfind c v conf src now
    | none =>
      refine ⟨{ id := freshId, user_id := u, category := c, key := k,
                value := v, confidence := conf, source := src,
                timestamp := now }, ?_, rfl, rfl, rfl, rfl, rfl⟩
      have hres :
          (Db.add_or_update_user_note db none freshId now u c k v conf
            src).2 =
            db ++ [{ id := freshId, user_id := u, category := c, key := k,
                     value := v, confidence := conf, source := src,
                     timestamp := now }] := by
        simp only [Db.add_or_update_user_note, hfind]
        rfl
      rw [hres]
      exact Db.find_after_insert db u k hfind _ (by simp [Db.noteMatches])

/-- Witness for the amended upsert claim on a concrete one-row table with
a matching note. -/
theorem upsert_last_write_wins_witness :
    (([{ id := 1, user_id := "u1", category := "fitness_goal",
         key := "weight", value := "lose", confidence := (1 : Rat) / 2,
         source := "inferred", timestamp := 0 }] :
        List Db.NoteRow).map (·.id)).Nodup ∧
    (Db.add_or_update_user_note
        [{ id := 1, user_id := "u1", category := "fitness_goal",
           key := "weight", value := "lose", confidence := (1 : Rat) / 2,
           source := "inferred", timestamp := 0 }]
        none 2 5 "u1" "health_metric" "weight" "180 lbs" ((9 : Rat) / 10)
        "user_stated").1 = true :=
  ⟨by decide,
    (upsert_last_write_wins
      [{ id := 1, user_id := "u1", category := "fitness_goal",
         key := "weight", value := "lose", confidence := (1 : Rat) / 2,
         source := "inferred", timestamp := 0 }]
      2 5 "u1" "health_metric" "weight" "180 lbs" ((9 : Rat) / 10)
      "user_stated" (by decide)).1⟩

/-- **C9** (confirmed): `add_or_update_user_note` never propagates an
exception — in this model it is a total function into `Bool × table`,
mirroring the source where the whole body sits in a `try` whose
`except Exception` returns `False` — and it returns `True` when lookup,
write and commit all succeed, `False` when any step raises; in the
failure case the commit never ran, so the committed table is unchanged. -/
theorem upsert_never_raises (db : List Db.NoteRow)
    (failAt : Option Db.DbStep) (freshId now : Nat) (u c k v : String)
    (conf : Rat) (src : String) :
    (failAt = none →
      (Db.add_or_update_user_note db failAt freshId now u c k v conf
        src).1 = true) ∧
    (∀ st, failAt = some st →
      Db.add_or_update_user_note db failAt freshId now u c k v conf src =
        (false, db)) := by
  constructor
  · rintro rfl
    rfl
  · rintro st rfl
    cases st <;> rfl

/-- Witness for the error-handling claim: a commit failure reports
`False` and leaves the table untouched. -/
theorem upsert_never_raises_witness :
    (some Db.DbStep.commit = (none : Option Db.DbStep) →
      (Db.add_or_update_user_note [] (some Db.DbStep.commit) 1 0 "u" "c"
        "k" "v" ((1 : Rat) / 2) "s").1 = true) ∧
    Db.add_or_update_user_note [] (some Db.DbStep.commit) 1 0 "u" "c" "k"
        "v" ((1 : Rat) / 2) "s" = (false, []) :=
  ⟨(upsert_never_raises [] (some Db.DbStep.commit) 1 0 "u" "c" "k" "v"
      ((1 : Rat) / 2) "s").1,
    (upsert_never_raises [] (some Db.DbStep.commit) 1 0 "u" "c" "k" "v"
      ((1 : Rat) / 2) "s").2 Db.DbStep.commit rfl⟩

end Db

namespace Agent

/-- **C10** (confirmed): the conversation context is built from exactly
the final `min(10, length)` stored messages, in stored order (they form a
suffix of the stored conversation), followed by the current user prompt
and agent response. -/
theorem context_uses_last_ten_messages (messages : List Agent.PyMsg)
    (p r : String) :
    (Agent.recent_messages messages).length = min 10 messages.length ∧
    Agent.recent_messages messages <:+ messages ∧
    Agent.conversation_text messages p r =
      String.intercalate "\n"
          ((messages.drop (messages.length - min 10 messages.length)).map
            Agent.msgLine)
        ++ "\nUSER: " ++ p ++ "\nASSISTANT: " ++ r := by
  have hrm : Agent.recent_messages messages =
      messages.drop (messages.length - min 10 messages.length) := by
    unfold Agent.recent_messages
    by_cases h : messages.length > 10
    · rw [if_pos h, Nat.min_eq_left (le_of_lt h)]
    · rw [if_neg h, Nat.min_eq_right (by omega), Nat.sub_self,
        List.drop_zero]
  refine ⟨?_, ?_, ?_⟩
  · rw [hrm, List.length_drop]
    omega
  · rw [hrm]
    exact List.drop_suffix _ _
  · unfold Agent.conversation_text
    rw [hrm]

/-- **C8** (confirmed): `extract_user_notes` never propagates an
exception.  For every oracle outcome it returns `Except.ok` of some list
(the model's `Except.error` would be a propagated Python exception); each
failure mode — conversation-fetch error, LLM API error (or a `None`
completion), unparsable JSON in the completion, a parsed document whose
`"notes"` check fails — yields the empty list; and the result does not
depend on the boolean outcomes of `add_or_update_user_note` at all
(storage failures surface as `False` return values the source discards),
so note-storage errors cannot fail it either. -/
theorem extract_user_notes_never_raises
    (conv : Except String (List Agent.PyMsg)) (p r : String)
    (llm : String → Except String (Option String))
    (store : Agent.Json → Bool) :
    (∃ xs, Agent.extract_user_notes conv p r llm store = Except.ok xs) ∧
    (∀ e, conv = Except.error e →
      Agent.extract_user_notes conv p r llm store = Except.ok []) ∧
    (∀ msgs e, conv = Except.ok msgs →
      llm (Agent.conversation_text msgs p r) = Except.error e →
      Agent.extract_user_notes conv p r llm store = Except.ok []) ∧
    (∀ msgs, conv = Except.ok msgs →
      llm (Agent.conversation_text msgs p r) = Except.ok none →
      Agent.extract_user_notes conv p r llm store = Except.ok []) ∧
    (∀ msgs t, conv = Except.ok msgs →
      llm (Agent.conversation_text msgs p r) = Except.ok (some t) →
      Agent.json_loads (Agent.extract_json t.data) = none →
      Agent.extract_user_notes conv p r llm store = Except.ok []) ∧
    (∀ msgs t v, conv = Except.ok msgs →
      llm (Agent.conversation_text msgs p r) = Except.ok (some t) →
      Agent.json_loads (Agent.extract_json t.data) = some v →
      Agent.notesCheck v = Agent.NotesOutcome.noNotes →
      Agent.extract_user_notes conv p r llm store = Except.ok []) ∧
    (∀ st : Agent.Json → Bool,
      Agent.extract_user_notes conv p r llm store =
        Agent.extract_user_notes conv p r llm st) := by
  refine ⟨?_, ?_, ?_, ?_, ?_, ?_, ?_⟩
  · rcases hc : conv with e | msgs
    · exact ⟨[], by simp [Agent.extract_user_notes]⟩
    · rcases hl : llm (Agent.conversation_text msgs p r) with e | o
      · exact ⟨[], by simp [Agent.extract_user_notes, hl]⟩
      rcases o with _ | t
      · exact ⟨[], by simp [Agent.extract_user_notes, hl]⟩
      rcases hj : Agent.json_loads (Agent.extract_json t.data) with _ | v
      · exact ⟨[], by simp [Agent.extract_user_notes, hl, hj]⟩
      rcases hn : Agent.notesCheck v with xs | _ | _
      · by_cases hall : xs.all Agent.isJsonObj
        · exact ⟨xs, by simp [Agent.extract_user_notes, hl, hj, hn, hall]⟩
        · exact ⟨[], by simp [Agent.extract_user_notes, hl, hj, hn, hall]⟩
      · exact ⟨[], by simp [Agent.extract_user_notes, hl, hj, hn]⟩
      · exact ⟨[], by simp [Agent.extract_user_notes, hl, hj, hn]⟩
  · rintro e rfl
    simp [Agent.extract_user_notes]
  · rintro msgs e rfl hl
    simp [Agent.extract_user_notes, hl]
  · rintro msgs rfl hl
    simp [Agent.extract_user_notes, hl]
  · rintro msgs t rfl hl hj
    simp [Agent.extract_user_notes, hl, hj]
  · rintro msgs t v rfl hl hj hn
    simp [Agent.extract_user_notes, hl, hj, hn]
  · intro st
    rcases hc : conv with e | msgs
    · simp [Agent.extract_user_notes]
    rcases hl : llm (Agent.conversation_text msgs p r) with e | o
    · simp [Agent.extract_user_notes, hl]
    rcases o with _ | t
    · simp [Agent.extract_user_notes, hl]
    rcases hj : Agent.json_loads (Agent.extract_json t.data) with _ | v
    · simp [Agent.extract_user_notes, hl, hj]
    rcases hn : Agent.notesCheck v with xs | _ | _ <;>
      simp [Agent.extract_user_notes, hl, hj, hn]

/-- Witness for the no-exception claim: a failed conversation fetch
yields the empty list. -/
theorem extract_user_notes_never_raises_witness :
    Agent.extract_user_notes (Except.error "db down") "p" "r"
        (fun _ => Except.ok (some "{}")) (fun _ => true) = Except.ok [] :=
  (extract_user_notes_never_raises (Except.error "db down") "p" "r"
      (fun _ => Except.ok (some "{}")) (fun _ => true)).2.1 "db down" rfl

theorem startsWith_append_self (pat t : List Char) :
    startsWith (pat ++ t) pat = true := by
  induction pat with
  | nil => cases t <;> rfl
  | cons p ps ih => simp [startsWith, ih]

/-- A pattern free of newlines cannot look past a newline: matching at
the head of `x ++ '\n' :: y` is matching at the head of `x`. -/
theorem startsWith_stops_at_newline (pat : List Char)
    (hnl : '\n' ∉ pat) :
    ∀ x y : List Char, startsWith (x ++ '\n' :: y) pat = startsWith x pat := by
  induction pat with
  | nil => intro x y; cases x <;> rfl
  | cons p ps ih =>
    intro x y
    cases x with
    | nil =>
      have hp : ¬ (('\n' : Char) = p) :=
        fun he => hnl (he ▸ List.mem_cons_self _ _)
      simp [startsWith, hp]
    | cons c x' =>
      have hnl' : '\n' ∉ ps := fun hm => hnl (List.mem_cons_of_mem _ hm)
      simp [startsWith, ih hnl' x' y]

theorem containsSub_of_startsWith {pat s : List Char}
    (h : startsWith s pat = true) : containsSub pat s = true := by
  cases s with
  | nil => exact h
  | cons c z => simp [containsSub, h]

/-- Substring search distributes over a newline separator when the
pattern contains no newline: an occurrence lies wholly on one side. -/
theorem containsSub_append_newline (pat : List Char) (hne : pat ≠ [])
    (hnl : '\n' ∉ pat) :
    ∀ x y : List Char,
      containsSub pat (x ++ '\n' :: y) =
        (containsSub pat x || containsSub pat y) := by
  intro x y
  induction x with
  | nil =>
    obtain ⟨p, ps, rfl⟩ : ∃ p ps, pat = p :: ps := by
      cases pat with
      | nil => exact absurd rfl hne
      | cons p ps => exact ⟨p, ps, rfl⟩
    have hp : ¬ (('\n' : Char) = p) :=
      fun he => hnl (he ▸ List.mem_cons_self _ _)
    simp [containsSub, startsWith, hp]
  | cons c x' ih =>
    calc containsSub pat ((c :: x') ++ '\n' :: y)
        = (startsWith ((c :: x') ++ '\n' :: y) pat ||
            containsSub pat (x' ++ '\n' :: y)) := by simp [containsSub]
      _ = (startsWith (c :: x') pat ||
            (containsSub pat x' || containsSub pat y)) := by
          rw [startsWith_stops_at_newline pat hnl, ih]
      _ = (containsSub pat (c :: x') || containsSub pat y) := by
          simp [containsSub, Bool.or_assoc]

theorem startsWith_of_startsWith_append {s p q : List Char}
    (h : startsWith s (p ++ q) = true) : startsWith s p = true := by
  induction p generalizing s with
  | nil => cases s <;> rfl
  | cons a p' ih =>
    cases s with
    | nil => simp [startsWith] at h
    | cons c s' =>
      simp only [List.cons_append, startsWith, Bool.and_eq_true] at h ⊢
      exact ⟨h.1, ih h.2⟩

/-- An occurrence of `p ++ q` contains an occurrence of `p`. -/
theorem containsSub_of_containsSub_append {p q s : List Char}
    (h : containsSub (p ++ q) s = true) : containsSub p s = true := by
  induction s with
  | nil =>
    have : p ++ q = [] := by
      cases hpq : p ++ q with
      | nil => rfl
      | cons a l => rw [hpq] at h; simp [containsSub, startsWith] at h
    rcases List.append_eq_nil.mp this with ⟨rfl, rfl⟩
    rfl
  | cons c z ih =>
    simp only [containsSub, Bool.or_eq_true] at h ⊢
    rcases h with h | h
    · exact Or.inl (startsWith_of_startsWith_append h)
    · exact Or.inr (ih h)

theorem containsSub_tail_false {pat : List Char} {c : Char}
    {z : List Char} (h : containsSub pat (c :: z) = false) :
    containsSub pat z = false := by
  simp only [containsSub, Bool.or_eq_false_iff] at h
  exact h.2

theorem splitFirst_eq_none {sep s : List Char}
    (h : containsSub sep s = false) : splitFirst sep s = none := by
  induction s with
  | nil => rfl
  | cons c rest ih =>
    simp only [containsSub, Bool.or_eq_false_iff] at h
    simp [splitFirst, h.1, ih h.2]

theorem splitFirst_at_head (sep t : List Char) (hne : sep ≠ []) :
    splitFirst sep (sep ++ t) = some ([], t) := by
  obtain ⟨s0, ss, rfl⟩ : ∃ s0 ss, sep = s0 :: ss := by
    cases sep with
    | nil => exact absurd rfl hne
    | cons s0 ss => exact ⟨s0, ss, rfl⟩
  have hsw : startsWith ((s0 :: ss) ++ t) (s0 :: ss) = true :=
    startsWith_append_self _ _
  simp only [List.cons_append, splitFirst] at hsw ⊢
  rw [if_pos (by simp [hsw])]
  simp [List.drop_left]

/-- The central no-straddle fact for the closing fence: when `"```"`
occurs neither inside `a` nor straddling the boundary of `a` and the
fence (i.e. not in `a ++ "``"`), splitting `a ++ "```" ++ b` on the
fence severs exactly at the fence. -/
theorem splitFirst_ticks (a b : List Char)
    (h : containsSub ['`', '`', '`'] (a ++ ['`', '`']) = false) :
    splitFirst ['`', '`', '`'] (a ++ ['`', '`', '`'] ++ b) =
      some (a, b) := by
  induction a with
  | nil =>
    rw [List.nil_append]
    exact splitFirst_at_head _ _ (by simp)
  | cons c a' ih =>
    have hsw : startsWith (c :: (a' ++ ('`' :: '`' :: '`' :: b)))
        ['`', '`', '`'] = false := by
      cases hq : startsWith (c :: (a' ++ ('`' :: '`' :: '`' :: b)))
          ['`', '`', '`'] with
      | false => rfl
      | true =>
        exfalso
        have hocc : containsSub ['`', '`', '`']
            (c :: (a' ++ ['`', '`'])) = true := by
          rcases a' with _ | ⟨d, _ | ⟨e, a''⟩⟩
          · simp only [List.nil_append, startsWith, Bool.and_eq_true,
              decide_eq_true_eq] at hq
            exact containsSub_of_startsWith
              (by simp [startsWith, hq.1])
          · simp only [List.cons_append, List.nil_append, startsWith,
              Bool.and_eq_true, decide_eq_true_eq] at hq
            exact containsSub_of_startsWith
              (by simp [startsWith, hq.1, hq.2.1])
          · simp only [List.cons_append, startsWith, Bool.and_eq_true,
              decide_eq_true_eq] at hq
            exact containsSub_of_startsWith
              (by simp [startsWith, hq.1, hq.2.1, hq.2.2.1])
        rw [List.cons_append] at h
        rw [hocc] at h
        simp at h
    have h' : containsSub ['`', '`', '`'] (a' ++ ['`', '`']) = false :=
      containsSub_tail_false (c := c) (by simpa using h)
    simp only [List.cons_append, List.nil_append]
    simp only [splitFirst]
    rw [if_neg (by simp [hsw])]
    rw [ih h']
    rfl

theorem skipWs_append_of_ne_nil {x : List Char} (y : List Char)
    (h : skipWs x ≠ []) : skipWs (x ++ y) = skipWs x ++ y := by
  induction x with
  | nil => exact absurd rfl h
  | cons c x' ih =>
    by_cases hc : isJsonWs c
    · have hx : skipWs (c :: x') = skipWs x' := by
        simp [skipWs, List.dropWhile_cons, hc]
      rw [hx] at h ⊢
      simpa [skipWs, List.dropWhile_cons, hc] using ih h
    · simp [skipWs, List.dropWhile_cons, hc]

theorem skipWs_append_of_nil {x : List Char} (y : List Char)
    (h : skipWs x = []) : skipWs (x ++ y) = skipWs y := by
  induction x with
  | nil => rfl
  | cons c x' ih =>
    by_cases hc : isJsonWs c
    · have hx : skipWs (c :: x') = skipWs x' := by
        simp [skipWs, List.dropWhile_cons, hc]
      rw [hx] at h
      simpa [skipWs, List.dropWhile_cons, hc] using ih h
    · rw [skipWs, List.dropWhile_cons, if_neg (by simp [hc])] at h
      exact absurd h (by simp)

/-- A successful string-body parse found its closing quote inside the
input, so appending more input leaves the parse untouched. -/
theorem parseStringBody_append (s : List Char) :
    ∀ x t, parseStringBody s = some x →
      parseStringBody (s ++ t) = some (x.1, x.2 ++ t) := by
  induction s using parseStringBody.induct with
  | case1 =>
    intro x t h
    exact Option.noConfusion h
  | case2 rest =>
    intro x t h
    obtain ⟨x1, x2⟩ := x
    rw [parseStringBody.eq_def] at h
    simp only [List.cons_append]
    rw [parseStringBody.eq_def]
    simp at h ⊢
    exact ⟨h.1, by rw [h.2]⟩
  | case3 hne =>
    intro x t h
    exact Option.noConfusion h
  | case4 h1 h2 h3 h4 rest'' hhex hne ih =>
    intro x t h
    rw [parseStringBody.eq_def] at h
    simp only [List.cons_append]
    rw [parseStringBody.eq_def]
    simp [hhex] at h ⊢
    obtain ⟨a, b, hab, rfl⟩ := h
    exact ⟨a, ih (a, b) t hab, rfl⟩
  | case5 h1 h2 h3 h4 rest'' hhex hne =>
    intro x t h
    rw [parseStringBody.eq_def] at h
    simp [hhex] at h
  | case6 rest' hshort hne =>
    intro x t h
    rcases rest' with _ | ⟨d1, _ | ⟨d2, _ | ⟨d3, _ | ⟨d4, rr⟩⟩⟩⟩
    · exact Option.noConfusion h
    · exact Option.noConfusion h
    · exact Option.noConfusion h
    · exact Option.noConfusion h
    · exact (hshort d1 d2 d3 d4 rr rfl).elim
  | case7 e rest' hne hesc hq ih =>
    intro x t h
    rw [parseStringBody.eq_def] at h
    simp only [List.cons_append]
    rw [parseStringBody.eq_def]
    simp [hne, hesc] at h ⊢
    obtain ⟨a, b, hab, rfl⟩ := h
    exact ⟨a, ih (a, b) t hab, rfl⟩
  | case8 e rest' hne hesc hq =>
    intro x t h
    rw [parseStringBody.eq_def] at h
    simp [hne, hesc] at h
  | case9 e rest' hq hb hctl =>
    intro x t h
    rw [parseStringBody.eq_def] at h
    simp [hq, hb, hctl] at h
  | case10 e rest' hq hb hctl ih =>
    intro x t h
    rw [parseStringBody.eq_def] at h
    simp only [List.cons_append]
    rw [parseStringBody.eq_def]
    simp [hq, hb, hctl] at h ⊢
    obtain ⟨a, b, hab, rfl⟩ := h
    exact ⟨a, ih (a, b) t hab, rfl⟩

/-- The four unpacked facts of a safe suffix with a head character. -/
theorem safeSuffix_cons {c : Char} {t' : List Char}
    (hs : safeSuffix (c :: t') = true) :
    c.isDigit = false ∧ ¬ c = '.' ∧ ¬ c = 'e' ∧ ¬ c = 'E' := by
  simp [safeSuffix] at hs
  exact ⟨hs.1.1.1, hs.1.1.2, hs.1.2, hs.2⟩

/-- A safe suffix starts with no digit, so it contributes no digits. -/
theorem takeDigits_safe {t : List Char} (hs : safeSuffix t = true) :
    takeDigits t = ([], t) := by
  cases t with
  | nil => rfl
  | cons c t' => simp [takeDigits, (safeSuffix_cons hs).1]

/-- Appending to the input moves through `takeDigits` whenever the digit
run already stopped inside the input, or the suffix starts with a
non-digit. -/
theorem takeDigits_append (x t : List Char)
    (hc : (takeDigits x).2 ≠ [] ∨ safeSuffix t = true) :
    takeDigits (x ++ t) = ((takeDigits x).1, (takeDigits x).2 ++ t) := by
  induction x with
  | nil =>
    rcases hc with hc | hc
    · exact absurd rfl hc
    · simp [takeDigits, takeDigits_safe hc]
  | cons c x' ih =>
    by_cases hd : c.isDigit
    · have hc' : (takeDigits x').2 ≠ [] ∨ safeSuffix t = true := by
        rcases hc with hc | hc
        · left
          simpa [takeDigits, hd] using hc
        · right
          exact hc
      simp [takeDigits, hd, ih hc']
    · simp [takeDigits, hd]

/-- `withDigits` commutes with appending a safe (or already-separated)
suffix. -/
theorem withDigits_append (pre u ex r t : List Char)
    (h : withDigits pre u = some (ex, r))
    (hc : r ≠ [] ∨ safeSuffix t = true) :
    withDigits pre (u ++ t) = some (ex, r ++ t) := by
  unfold withDigits at h ⊢
  cases htd : takeDigits u with
  | mk ds rr =>
    rw [htd] at h
    cases ds with
    | nil => exact absurd h (by simp)
    | cons d ds' =>
      simp only [] at h
      obtain ⟨rfl, rfl⟩ : pre ++ d :: ds' = ex ∧ rr = r := by
        injection h with h'
        injection h' with h1 h2
        exact ⟨h1, h2⟩
      have htd2 : takeDigits (u ++ t) = (d :: ds', rr ++ t) := by
        have := takeDigits_append u t (by rw [htd]; simpa using hc)
        rw [htd] at this
        exact this
      rw [htd2]

theorem parseFrac_dot (rest : List Char) :
    parseFrac ('.' :: rest) = withDigits ['.'] rest := rfl

theorem parseFrac_no_dot {c : Char} (rest : List Char) (hdot : ¬ c = '.') :
    parseFrac (c :: rest) = some ([], c :: rest) := by
  rw [parseFrac.eq_def]
  split
  · rename_i rest1 heq
    injection heq with e1 e2
    exact absurd e1 hdot
  · rfl

theorem parseFrac_append (s : List Char) (fr r t : List Char)
    (h : parseFrac s = some (fr, r)) (hc : r ≠ [] ∨ safeSuffix t = true) :
    parseFrac (s ++ t) = some (fr, r ++ t) := by
  cases s with
  | nil =>
    obtain ⟨rfl, rfl⟩ : ([] : List Char) = fr ∧ ([] : List Char) = r := by
      injection h with h'
      injection h' with h1 h2
      exact ⟨h1, h2⟩
    rcases hc with hc | hc
    · exact absurd rfl hc
    · cases t with
      | nil => rfl
      | cons c t' => exact parseFrac_no_dot t' (safeSuffix_cons hc).2.1
  | cons c rest =>
    by_cases hdot : c = '.'
    · subst hdot
      rw [parseFrac_dot] at h
      rw [List.cons_append, parseFrac_dot]
      exact withDigits_append _ _ _ _ _ h hc
    · rw [parseFrac_no_dot rest hdot] at h
      obtain ⟨rfl, rfl⟩ : ([] : List Char) = fr ∧ c :: rest = r := by
        injection h with h'
        injection h' with h1 h2
        exact ⟨h1, h2⟩
      rw [List.cons_append, parseFrac_no_dot (rest ++ t) hdot]

theorem parseExp_sign (c sc : Char) (rest' : List Char)
    (hech : (c = 'e' || c = 'E') = true)
    (hsgn : (sc = '+' || sc = '-') = true) :
    parseExp (c :: sc :: rest') = withDigits [c, sc] rest' := by
  simp [parseExp, hech, hsgn]

theorem parseExp_no_sign (c sc : Char) (rest' : List Char)
    (hech : (c = 'e' || c = 'E') = true)
    (hsgn : ¬ (sc = '+' || sc = '-') = true) :
    parseExp (c :: sc :: rest') = withDigits [c] (sc :: rest') := by
  simp [parseExp, hech, hsgn]

theorem parseExp_no_e {c : Char} (rest : List Char)
    (hech : ¬ (c = 'e' || c = 'E') = true) :
    parseExp (c :: rest) = some ([], c :: rest) := by
  simp [parseExp, hech]

theorem parseExp_append (s ex r t : List Char)
    (h : parseExp s = some (ex, r)) (hc : r ≠ [] ∨ safeSuffix t = true) :
    parseExp (s ++ t) = some (ex, r ++ t) := by
  cases s with
  | nil =>
    obtain ⟨rfl, rfl⟩ : ([] : List Char) = ex ∧ ([] : List Char) = r := by
      injection h with h'
      injection h' with h1 h2
      exact ⟨h1, h2⟩
    rcases hc with hc | hc
    · exact absurd rfl hc
    · cases t with
      | nil => rfl
      | cons c t' =>
        refine parseExp_no_e t' ?_
        have h3 := (safeSuffix_cons hc).2.2.1
        have h4 := (safeSuffix_cons hc).2.2.2
        simp [h3, h4]
  | cons c rest =>
    by_cases hech : (c = 'e' || c = 'E') = true
    · cases rest with
      | nil =>
        exfalso
        simp [parseExp, hech] at h
      | cons sc rest' =>
        by_cases hsgn : (sc = '+' || sc = '-') = true
        · rw [parseExp_sign c sc rest' hech hsgn] at h
          rw [show (c :: sc :: rest') ++ t = c :: sc :: (rest' ++ t) by simp,
            parseExp_sign c sc (rest' ++ t) hech hsgn]
          exact withDigits_append _ _ _ _ _ h hc
        · rw [parseExp_no_sign c sc rest' hech hsgn] at h
          rw [show (c :: sc :: rest') ++ t = c :: sc :: (rest' ++ t) by simp,
            parseExp_no_sign c sc (rest' ++ t) hech hsgn]
          have := withDigits_append [c] (sc :: rest') ex r t h hc
          simpa using this
    · rw [parseExp_no_e rest hech] at h
      obtain ⟨rfl, rfl⟩ : ([] : List Char) = ex ∧ c :: rest = r := by
        injection h with h'
        injection h' with h1 h2
        exact ⟨h1, h2⟩
      rw [List.cons_append, parseExp_no_e (rest ++ t) hech]

/-- Remainder-emptiness chains backward through the number pipeline. -/
theorem parseFrac_nil_of : parseFrac [] = some ([], []) := rfl

theorem parseExp_nil_of : parseExp [] = some ([], []) := rfl

theorem parseNumTail_append (sign u lex r t : List Char)
    (h : parseNumTail sign u = some (lex, r))
    (hc : r ≠ [] ∨ safeSuffix t = true) :
    parseNumTail sign (u ++ t) = some (lex, r ++ t) := by
  unfold parseNumTail at h ⊢
  split at h
  · exact Option.noConfusion h
  · rename_i ds s2 hnoc htd
    have hds : ds ≠ [] := hnoc
    by_cases hz : 1 < ds.length ∧ ds.head? = some '0'
    · rw [if_pos hz] at h
      exact absurd h (by simp)
    · rw [if_neg hz] at h
      split at h
      · exact Option.noConfusion h
      · rename_i fr s3 hf
        split at h
        · exact Option.noConfusion h
        · rename_i ex s4 he
          obtain ⟨rfl, rfl⟩ : sign ++ ds ++ fr ++ ex = lex ∧ s4 = r := by
            injection h with h'
            injection h' with h1 h2
            exact ⟨h1, h2⟩
          have hs3 : s3 ≠ [] ∨ safeSuffix t = true := by
            rcases hc with hc | hc
            · left
              intro h3
              rw [h3, parseExp_nil_of] at he
              injection he with he'
              injection he' with he1 he2
              exact hc he2.symm
            · right; exact hc
          have hs2 : s2 ≠ [] ∨ safeSuffix t = true := by
            rcases hs3 with hs3 | hs3
            · left
              intro h2
              rw [h2, parseFrac_nil_of] at hf
              injection hf with hf'
              injection hf' with hf1 hf2
              exact hs3 hf2.symm
            · right; exact hs3
          have htd2 : takeDigits (u ++ t) = (ds, s2 ++ t) := by
            have := takeDigits_append u t (by rw [htd]; simpa using hs2)
            rw [htd] at this
            exact this
          have hfA := parseFrac_append s2 fr s3 t hf hs3
          have heA := parseExp_append s3 ex s4 t he hc
          split
          · rename_i snd hpair
            rw [htd2] at hpair
            injection hpair with e1 e2
            exact (hds e1).elim
          · rename_i ds2 s22 hnoc2 hpair
            rw [htd2] at hpair
            injection hpair with e1 e2
            subst e1
            subst e2
            rw [if_neg hz]
            split
            · rename_i hpf
              rw [hfA] at hpf
              exact Option.noConfusion hpf
            · rename_i fr2 s32 hpf
              rw [hfA] at hpf
              injection hpf with hpf'
              injection hpf' with e3 e4
              subst e3
              subst e4
              split
              · rename_i hpe
                rw [heA] at hpe
                exact Option.noConfusion hpe
              · rename_i ex2 s42 hpe
                rw [heA] at hpe
                injection hpe with hpe'
                injection hpe' with e5 e6
                subst e5
                subst e6
                rfl

theorem parseNumber_append (s lex r t : List Char)
    (h : parseNumber s = some (lex, r)) (hc : r ≠ [] ∨ safeSuffix t = true) :
    parseNumber (s ++ t) = some (lex, r ++ t) := by
  rw [parseNumber.eq_def] at h
  split at h
  · rename_i rest
    rw [List.cons_append, parseNumber.eq_def]
    split
    · rename_i rest1 heq
      injection heq with e1 e2
      rw [← e2]
      exact parseNumTail_append _ _ _ _ _ h hc
    · rename_i hno
      exact ((hno (rest ++ t)) rfl).elim
  · rename_i hno
    rw [parseNumber.eq_def]
    split
    · rename_i rest1 heq
      exfalso
      cases hs : s with
      | nil =>
        rw [hs] at h
        exact Option.noConfusion h
      | cons c s2 =>
        rw [hs, List.cons_append] at heq
        injection heq with e1 e2
        exact hno s2 (by rw [hs, e1])
    · exact parseNumTail_append _ _ _ _ _ h hc

theorem parseValue_nil (f : Nat) : parseValue f [] = none := by
  cases f <;> rfl

theorem parseMembers_nil (f : Nat) : parseMembers f [] = none := by
  cases f <;> rfl

theorem parseElements_nil (f : Nat) : parseElements f [] = none := by
  cases f with
  | zero => rfl
  | succ f' =>
    rw [parseElements.eq_2, parseValue_nil]

theorem stripRun_append (lit rest r t : List Char)
    (h : stripRun lit rest = some r) :
    stripRun lit (rest ++ t) = some (r ++ t) := by
  induction lit generalizing rest with
  | nil =>
    obtain rfl : rest = r := by
      injection h
    rfl
  | cons p ps ih =>
    cases rest with
    | nil => exact Option.noConfusion h
    | cons c rest' =>
      by_cases hcp : c = p
      · rw [List.cons_append]
        simp only [stripRun, if_pos hcp] at h ⊢
        exact ih rest' h
      · simp only [stripRun, if_neg hcp] at h
        exact Option.noConfusion h

theorem skipWs_append_cons {x : List Char} {c : Char} {w : List Char}
    (h : skipWs x = c :: w) (t : List Char) :
    skipWs (x ++ t) = c :: (w ++ t) := by
  rw [skipWs_append_of_ne_nil t (by rw [h]; simp), h, List.cons_append]

/-- The joint fuel-growth / input-append lemma for the mutual JSON value
parser: a successful parse at fuel `f` is reproduced at any fuel `g ≥ f`
on input extended by a suffix that cannot extend its final token (either
the parse left a nonempty remainder, or the suffix starts safely). -/
theorem parse_grow : ∀ g f, f ≤ g →
    (∀ s x t, parseValue f s = some x →
      (x.2 ≠ [] ∨ safeSuffix t = true) →
        parseValue g (s ++ t) = some (x.1, x.2 ++ t)) ∧
    (∀ s x t, parseMembers f s = some x →
      (x.2 ≠ [] ∨ safeSuffix t = true) →
        parseMembers g (s ++ t) = some (x.1, x.2 ++ t)) ∧
    (∀ s x t, parseElements f s = some x →
      (x.2 ≠ [] ∨ safeSuffix t = true) →
        parseElements g (s ++ t) = some (x.1, x.2 ++ t)) := by
  intro g
  induction g with
  | zero =>
    intro f hf
    obtain rfl : f = 0 := Nat.le_zero.mp hf
    exact ⟨fun s x t h _ => Option.noConfusion h,
           fun s x t h _ => Option.noConfusion h,
           fun s x t h _ => Option.noConfusion h⟩
  | succ g ihg =>
    intro f hf
    cases f with
    | zero =>
      exact ⟨fun s x t h _ => Option.noConfusion h,
             fun s x t h _ => Option.noConfusion h,
             fun s x t h _ => Option.noConfusion h⟩
    | succ f' =>
      have hf' : f' ≤ g := Nat.succ_le_succ_iff.mp hf
      obtain ⟨ihv, ihm, ihe⟩ := ihg f' hf'
      refine ⟨?_, ?_, ?_⟩
      · -- parseValue
        intro s x t h hcond
        cases s with
        | nil => rw [parseValue_nil] at h; exact Option.noConfusion h
        | cons c rest =>
          rw [List.cons_append]
          rw [parseValue.eq_3] at h
          rw [parseValue.eq_3]
          by_cases h1 : c = '"'
          · rw [if_pos h1] at h ⊢
            split at h
            · rename_i cs r1 hsb
              obtain rfl : x = (Json.str cs, r1) := by
                injection h with h'
                exact h'.symm
              rw [parseStringBody_append rest (cs, r1) t hsb]
            · exact Option.noConfusion h
          · rw [if_neg h1] at h ⊢
            by_cases h2 : c = '{'
            · rw [if_pos h2] at h ⊢
              split at h
              · rename_i r hw
                obtain rfl : x = (Json.obj [], r) := by
                  injection h with h'
                  exact h'.symm
                rw [skipWs_append_cons hw t]
                rfl
              · rename_i w0 hnoc
                have hwne : skipWs rest ≠ [] := by
                  intro he
                  rw [he, parseMembers_nil] at h
                  exact Option.noConfusion h
                obtain ⟨cw, w', hwc⟩ : ∃ cw w', skipWs rest = cw :: w' := by
                  cases hsw : skipWs rest with
                  | nil => exact absurd hsw hwne
                  | cons a b => exact ⟨a, b, rfl⟩
                rw [skipWs_append_of_ne_nil t hwne, hwc, List.cons_append]
                split
                · rename_i r2 heq5
                  injection heq5 with e6 e7
                  exact ((hnoc w') (by rw [hwc, e6])).elim
                · rename_i w2 hnoc2
                  have hpm : parseMembers f' (cw :: w') = some x := by
                    rw [← hwc]
                    exact h
                  have hr := ihm (cw :: w') x t hpm hcond
                  rw [List.cons_append] at hr
                  exact hr
            · by_cases h3 : c = '['
              · rw [if_neg h2, if_pos h3] at h ⊢
                split at h
                · rename_i r hw
                  obtain rfl : x = (Json.arr [], r) := by
                    injection h with h'
                    exact h'.symm
                  rw [skipWs_append_cons hw t]
                  rfl
                · rename_i w0 hnoc
                  have hwne : skipWs rest ≠ [] := by
                    intro he
                    rw [he, parseElements_nil] at h
                    exact Option.noConfusion h
                  obtain ⟨cw, w', hwc⟩ : ∃ cw w', skipWs rest = cw :: w' := by
                    cases hsw : skipWs rest with
                    | nil => exact absurd hsw hwne
                    | cons a b => exact ⟨a, b, rfl⟩
                  rw [skipWs_append_of_ne_nil t hwne, hwc, List.cons_append]
                  split
                  · rename_i r2 heq5
                    injection heq5 with e6 e7
                    exact ((hnoc w') (by rw [hwc, e6])).elim
                  · rename_i w2 hnoc2
                    have hpe : parseElements f' (cw :: w') = some x := by
                      rw [← hwc]
                      exact h
                    have hr := ihe (cw :: w') x t hpe hcond
                    rw [List.cons_append] at hr
                    exact hr
              · rw [if_neg h2, if_neg h3] at h ⊢
                by_cases h4 : c = 't'
                · rw [if_pos h4] at h ⊢
                  split at h
                  · rename_i r hsr
                    obtain rfl : x = (Json.bool true, r) := by
                      injection h with h'
                      exact h'.symm
                    rw [stripRun_append _ rest r t hsr]
                  · exact Option.noConfusion h
                · rw [if_neg h4] at h ⊢
                  by_cases h5 : c = 'f'
                  · rw [if_pos h5] at h ⊢
                    split at h
                    · rename_i r hsr
                      obtain rfl : x = (Json.bool false, r) := by
                        injection h with h'
                        exact h'.symm
                      rw [stripRun_append _ rest r t hsr]
                    · exact Option.noConfusion h
                  · rw [if_neg h5] at h ⊢
                    by_cases h6 : c = 'n'
                    · rw [if_pos h6] at h ⊢
                      split at h
                      · rename_i r hsr
                        obtain rfl : x = (Json.null, r) := by
                          injection h with h'
                          exact h'.symm
                        rw [stripRun_append _ rest r t hsr]
                      · exact Option.noConfusion h
                    · rw [if_neg h6] at h ⊢
                      by_cases h7 : (c = '-' || c.isDigit) = true
                      · rw [if_pos h7] at h ⊢
                        split at h
                        · rename_i lex r1 hnum
                          obtain rfl : x = (Json.num lex, r1) := by
                            injection h with h'
                            exact h'.symm
                          have hnum2 := parseNumber_append (c :: rest) lex
                            r1 t hnum hcond
                          rw [List.cons_append] at hnum2
                          rw [hnum2]
                        · exact Option.noConfusion h
                      · rw [if_neg h7] at h
                        exact Option.noConfusion h
      · -- parseMembers
        intro s x t h hcond
        cases s with
        | nil => rw [parseMembers_nil] at h; exact Option.noConfusion h
        | cons c rest =>
          by_cases hq : c = '"'
          · subst hq
            rw [List.cons_append]
            rw [parseMembers.eq_2] at h
            rw [parseMembers.eq_2]
            split at h
            · rename_i key r1 hsb
              rw [parseStringBody_append rest (key, r1) t hsb]
              simp only []
              split at h
              · rename_i r2 hcolon
                rw [skipWs_append_cons hcolon t]
                simp only []
                split at h
                · rename_i v r3 hpv
                  have hr3ne : r3 ≠ [] := by
                    intro he
                    rw [he] at h
                    exact Option.noConfusion h
                  have hvne : skipWs r2 ≠ [] := by
                    intro he
                    rw [he, parseValue_nil] at hpv
                    exact Option.noConfusion hpv
                  rw [skipWs_append_of_ne_nil t hvne]
                  rw [ihv (skipWs r2) (v, r3) t hpv (Or.inl hr3ne)]
                  simp only []
                  split at h
                  · rename_i r4 hcomma
                    rw [skipWs_append_cons hcomma t]
                    simp only []
                    split at h
                    · rename_i flds r5 hpm
                      obtain rfl : x = (Json.obj ((key, v) :: flds), r5) := by
                        injection h with h'
                        exact h'.symm
                      have hmne : skipWs r4 ≠ [] := by
                        intro he
                        rw [he, parseMembers_nil] at hpm
                        exact Option.noConfusion hpm
                      rw [skipWs_append_of_ne_nil t hmne]
                      rw [ihm (skipWs r4) (Json.obj flds, r5) t hpm hcond]
                    · rename_i hnm
                      exact Option.noConfusion h
                  · rename_i r4 hbrace
                    obtain rfl : x = (Json.obj [(key, v)], r4) := by
                      injection h with h'
                      exact h'.symm
                    rw [skipWs_append_cons hbrace t]
                    rfl
                  · exact Option.noConfusion h
                · exact Option.noConfusion h
              · exact Option.noConfusion h
            · exact Option.noConfusion h
          · rw [parseMembers.eq_3 _ f'
                (fun rest1 he => hq (List.head_eq_of_cons_eq he))] at h
            exact Option.noConfusion h
      · -- parseElements
        intro s x t h hcond
        rw [parseElements.eq_2] at h
        rw [parseElements.eq_2]
        split at h
        · rename_i v r1 hpv
          have hr1ne : r1 ≠ [] := by
            intro he
            rw [he] at h
            exact Option.noConfusion h
          rw [ihv s (v, r1) t hpv (Or.inl hr1ne)]
          simp only []
          split at h
          · rename_i r2 hcomma
            rw [skipWs_append_cons hcomma t]
            simp only []
            split at h
            · rename_i xs r3 hpe
              obtain rfl : x = (Json.arr (v :: xs), r3) := by
                injection h with h'
                exact h'.symm
              have hene : skipWs r2 ≠ [] := by
                intro he
                rw [he, parseElements_nil] at hpe
                exact Option.noConfusion hpe
              rw [skipWs_append_of_ne_nil t hene]
              rw [ihe (skipWs r2) (Json.arr xs, r3) t hpe hcond]
            · rename_i hne2
              exact Option.noConfusion h
          · rename_i r2 hbrack
            obtain rfl : x = (Json.arr [v], r2) := by
              injection h with h'
              exact h'.symm
            rw [skipWs_append_cons hbrack t]
            rfl
          · exact Option.noConfusion h
        · exact Option.noConfusion h

/-- Parsing succeeds unchanged when the document is wrapped in single
newline characters, as the fence-stripping step leaves behind:
`json.loads` skips surrounding whitespace. -/
theorem json_loads_wrap_nl {j : List Char} {v : Json}
    (h : json_loads j = some v) :
    json_loads ('\n' :: (j ++ ['\n'])) = some v := by
  unfold json_loads at h
  split at h
  · rename_i v0 r hpv
    by_cases hr : skipWs r = []
    · rw [if_pos hr] at h
      injection h with h
      subst h
      have hne : skipWs j ≠ [] := by
        intro he
        rw [he, parseValue_nil] at hpv
        exact Option.noConfusion hpv
      have hg := (parse_grow (('\n' :: (j ++ ['\n'])).length + 1)
          (j.length + 1)
          (by
            simp only [List.length_cons, List.length_append,
              List.length_nil]
            omega)).1
          (skipWs j) (v0, r) ['\n'] hpv (Or.inr (by decide))
      have hg2 : parseValue (('\n' :: (j ++ ['\n'])).length + 1)
          (skipWs j ++ ['\n']) = some (v0, r ++ ['\n']) := hg
      have hsw : skipWs ('\n' :: (j ++ ['\n'])) = skipWs j ++ ['\n'] := by
        have h0 : skipWs ('\n' :: (j ++ ['\n'])) = skipWs (j ++ ['\n']) :=
          rfl
        rw [h0, skipWs_append_of_ne_nil ['\n'] hne]
      unfold json_loads
      rw [hsw, hg2]
      simp only []
      rw [skipWs_append_of_nil ['\n'] hr]
      rfl
    · rw [if_neg hr] at h
      exact Option.noConfusion h
  · exact Option.noConfusion h


/-- C6 counterexample: a completion text that is itself a valid JSON
object can contain a triple backtick inside a JSON string; the
fence-stripping step then splits on it and hands `json.loads` the
fragment after the backticks, which no longer parses, so the claim's
recovery promise fails on this valid-JSON completion. -/
theorem fence_split_breaks_backtick_string :
    json_loads ("\x7b\"a\": \"x```y\"\x7d".toList) =
      some (Json.obj [("a".toList, Json.str "x```y".toList)]) ∧
    json_loads (extract_json ("\x7b\"a\": \"x```y\"\x7d".toList)) = none :=
  ⟨rfl, rfl⟩

/-- C6 (amended): for every completion text that is a valid JSON object
containing no triple backtick, the parsing step recovers exactly that
object, whether the text stands alone or is wrapped in a surrounding
markdown code fence (the tagged form with a language tag and the plain
form, each fence on its own line). -/
theorem fenced_json_object_recovered {j : List Char}
    {o : List (List Char × Json)}
    (hj : json_loads j = some (Json.obj o))
    (hf : containsSub ("```".toList) j = false) :
    json_loads (extract_json j) = some (Json.obj o) ∧
    json_loads (extract_json
      ("```json\n".toList ++ j ++ "\n```".toList)) = some (Json.obj o) ∧
    json_loads (extract_json
      ("```\n".toList ++ j ++ "\n```".toList)) = some (Json.obj o) := by
  have h7 : containsSub ("```json".toList) j = false := by
    cases hq : containsSub ("```json".toList) j with
    | false => rfl
    | true =>
      have h3 : containsSub ("```".toList) j = true := by
        apply containsSub_of_containsSub_append
          (p := "```".toList) (q := "json".toList)
        have he : ("```".toList ++ "json".toList : List Char)
            = "```json".toList := rfl
        rw [he]
        exact hq
      rw [hf] at h3
      exact Bool.noConfusion h3
  have h7E : containsSub ['`', '`', '`', 'j', 's', 'o', 'n'] j = false := h7
  have hfE : containsSub ['`', '`', '`'] j = false := hf
  have h3nl : containsSub ("```".toList) ('\n' :: j) = false := by
    have h0 : containsSub ("```".toList) ('\n' :: j)
        = (startsWith ('\n' :: j) ("```".toList) ||
           containsSub ("```".toList) j) := rfl
    rw [h0, hf,
      show startsWith ('\n' :: j) ("```".toList) = false from rfl]
    rfl
  have h7nl : containsSub ("```json".toList) ('\n' :: j) = false := by
    have h0 : containsSub ("```json".toList) ('\n' :: j)
        = (startsWith ('\n' :: j) ("```json".toList) ||
           containsSub ("```json".toList) j) := rfl
    rw [h0, h7,
      show startsWith ('\n' :: j) ("```json".toList) = false from rfl]
    rfl
  have hstrad : containsSub ("```".toList)
      (('\n' :: (j ++ ['\n'])) ++ ['`', '`']) = false := by
    have hsh : (('\n' :: (j ++ ['\n'])) ++ ['`', '`'])
        = ('\n' :: j) ++ '\n' :: ['`', '`'] := by
      rw [List.cons_append, List.append_assoc]
      rfl
    rw [hsh, containsSub_append_newline _ (by decide) (by decide), h3nl,
      show containsSub ("```".toList) ['`', '`'] = false from by decide]
    rfl
  have hsplit2 : splitFirst ("```".toList)
      ('\n' :: (j ++ ('\n' :: "```".toList)))
      = some ('\n' :: (j ++ ['\n']), []) := by
    have hsh2 : ('\n' :: (j ++ ('\n' :: "```".toList)))
        = ('\n' :: (j ++ ['\n'])) ++ ['`', '`', '`'] ++ [] := by
      rw [List.append_nil, List.cons_append, List.append_assoc]
      rfl
    rw [hsh2]
    exact splitFirst_ticks ('\n' :: (j ++ ['\n'])) [] hstrad
  have hsplit2' : pySplitIdx0 ("```".toList)
      ('\n' :: (j ++ ('\n' :: "```".toList))) = '\n' :: (j ++ ['\n']) := by
    unfold pySplitIdx0
    rw [hsplit2]
  have hcore : containsSub ("```".toList) ('\n' :: (j ++ ['\n'])) = false := by
    have hsh : ('\n' :: (j ++ ['\n'])) = ('\n' :: j) ++ '\n' :: [] := rfl
    rw [hsh, containsSub_append_newline _ (by decide) (by decide), h3nl]
    rfl
  have hcore' : pySplitIdx0 ("```".toList) ('\n' :: (j ++ ['\n']))
      = '\n' :: (j ++ ['\n']) := by
    unfold pySplitIdx0
    rw [splitFirst_eq_none hcore]
  refine ⟨?_, ?_, ?_⟩
  · have hext : extract_json j = j := by
      unfold extract_json
      rw [if_neg (by simp [h7E]), if_neg (by simp [hfE])]
    rw [hext]
    exact hj
  · have hc7 : containsSub ("```json".toList)
        ("```json\n".toList ++ j ++ "\n```".toList) = true := by
      apply containsSub_of_startsWith
      have hsh : ("```json\n".toList ++ j ++ "\n```".toList : List Char)
          = "```json".toList ++ ('\n' :: (j ++ "\n```".toList)) := rfl
      rw [hsh]
      exact startsWith_append_self _ _
    have hsplit1 : splitFirst ("```json".toList)
        ("```json\n".toList ++ j ++ "\n```".toList)
        = some ([], '\n' :: (j ++ ('\n' :: "```".toList))) := by
      have hsh : ("```json\n".toList ++ j ++ "\n```".toList : List Char)
          = "```json".toList ++ ('\n' :: (j ++ ('\n' :: "```".toList))) :=
        rfl
      rw [hsh]
      exact splitFirst_at_head _ _ (by decide)
    have hnone : splitFirst ("```json".toList)
        ('\n' :: (j ++ ('\n' :: "```".toList))) = none := by
      apply splitFirst_eq_none
      have hsh : ('\n' :: (j ++ ('\n' :: "```".toList)))
          = ('\n' :: j) ++ '\n' :: "```".toList := rfl
      rw [hsh, containsSub_append_newline _ (by decide) (by decide), h7nl,
        show containsSub ("```json".toList) ("```".toList) = false from
          by decide]
      rfl
    have hs1 : pySplitIdx1 ("```json".toList)
        ("```json\n".toList ++ j ++ "\n```".toList)
        = '\n' :: (j ++ ('\n' :: "```".toList)) := by
      unfold pySplitIdx1
      rw [hsplit1]
      simp only []
      unfold pySplitIdx0
      rw [hnone]
    unfold extract_json
    rw [if_pos hc7, hs1, hsplit2']
    exact json_loads_wrap_nl hj
  · have hc7b : containsSub ("```json".toList)
        ("```\n".toList ++ j ++ "\n```".toList) = false := by
      have hsh : ("```\n".toList ++ j ++ "\n```".toList : List Char)
          = "```".toList ++ '\n' :: (j ++ ('\n' :: "```".toList)) := rfl
      rw [hsh, containsSub_append_newline _ (by decide) (by decide)]
      rw [show (j ++ ('\n' :: "```".toList) : List Char)
          = j ++ '\n' :: "```".toList from rfl]
      rw [containsSub_append_newline _ (by decide) (by decide), h7,
        show containsSub ("```json".toList) ("```".toList) = false from
          by decide]
      rfl
    have hc7bE : containsSub ['`', '`', '`', 'j', 's', 'o', 'n']
        ('`' :: '`' :: '`' :: '\n' :: (j ++ ['\n', '`', '`', '`']))
        = false := hc7b
    have hc3 : containsSub ("```".toList)
        ("```\n".toList ++ j ++ "\n```".toList) = true := by
      apply containsSub_of_startsWith
      have hsh : ("```\n".toList ++ j ++ "\n```".toList : List Char)
          = "```".toList ++ ('\n' :: (j ++ "\n```".toList)) := rfl
      rw [hsh]
      exact startsWith_append_self _ _
    have hsplit3 : splitFirst ("```".toList)
        ("```\n".toList ++ j ++ "\n```".toList)
        = some ([], '\n' :: (j ++ ('\n' :: "```".toList))) := by
      have hsh : ("```\n".toList ++ j ++ "\n```".toList : List Char)
          = "```".toList ++ ('\n' :: (j ++ ('\n' :: "```".toList))) := rfl
      rw [hsh]
      exact splitFirst_at_head _ _ (by decide)
    have hs1 : pySplitIdx1 ("```".toList)
        ("```\n".toList ++ j ++ "\n```".toList)
        = '\n' :: (j ++ ['\n']) := by
      unfold pySplitIdx1
      rw [hsplit3]
      simp only []
      exact hsplit2'
    unfold extract_json
    rw [if_neg (by simp [hc7bE]), if_pos hc3, hs1, hcore']
    exact json_loads_wrap_nl hj

/-- Witness for the amended C6 theorem at the concrete document of an
empty JSON object. -/
theorem fenced_json_object_recovered_witness :
    (json_loads ("\x7b\x7d".toList) = some (Json.obj []) ∧
     containsSub ("```".toList) ("\x7b\x7d".toList) = false) ∧
    (json_loads (extract_json ("\x7b\x7d".toList)) = some (Json.obj []) ∧
     json_loads (extract_json
       ("```json\n".toList ++ "\x7b\x7d".toList ++ "\n```".toList)) =
         some (Json.obj []) ∧
     json_loads (extract_json
       ("```\n".toList ++ "\x7b\x7d".toList ++ "\n```".toList)) =
         some (Json.obj [])) :=
  ⟨⟨rfl, rfl⟩, fenced_json_object_recovered rfl rfl⟩

end Agent

end FitnessBackend
